import Mathlib

/-!
# Formal model of the zenoh outbound-queue statistics and parameter codec

This file gives a shallow embedding of three Rust source files of the
repository and proves properties of the embedded functions:

* `io/zenoh-transport/src/common/qstats.rs` — the `QueueStats` statistics
  recorder (counters, histories, timestamp map, and the `report` snapshot);
* `commons/zenoh-config/src/defaults.rs` — the default per-class queue
  capacities `QueueSizeConf`;
* `commons/zenoh-collections/src/parameters.rs` — the `Parameters`
  key-value string codec.

Machine integers (`usize` on a 64-bit target) are modelled as `Nat` with
explicit reduction modulo `2 ^ 64` exactly where the Rust operation wraps
(`fetch_add` / `fetch_sub` on atomics).  `f64` values produced by the code
are modelled exactly: every float the statistics code manufactures is either
a `Nat` cast or the result of field arithmetic on such casts, so we track
the exact rational value, plus a separate `undef` point for the non-finite
results (NaN / ±∞) that IEEE division by zero produces.
-/

namespace Zenoh

/-- `2 ^ 64`, the modulus of `usize` arithmetic on the 64-bit target. -/
def USIZE : Nat := 2 ^ 64

/-- Exact model of the `f64` values occurring in `qstats.rs`: a finite value
with its exact rational magnitude, or `undef` for the non-finite results
(NaN or ±infinity) that arise from dividing by zero. -/
inductive F64 where
  | finite (q : ℚ) : F64
  | undef : F64
deriving DecidableEq

/-- IEEE `f64` division of two exactly-represented values: division by zero
yields a non-finite result (NaN when the numerator is 0, ±infinity
otherwise), collapsed here to `F64.undef`; otherwise the exact quotient. -/
def f64Div (a b : ℚ) : F64 := if b = 0 then F64.undef else F64.finite (a / b)

/-- `const ALPHA: f64 = 0.1;` (qstats.rs line 12), as an exact rational. -/
def ALPHA : ℚ := 1 / 10

/-- One step of the exponential-moving-average fold in
`QueueStats::report`: `ALPHA * value + (1.0 - ALPHA) * state`. -/
def emaStep (state value : ℚ) : ℚ := ALPHA * value + (1 - ALPHA) * state

/-- `QueueStatsReport` (qstats.rs lines 14–19). -/
structure QueueStatsReport where
  avg_qsize : ℚ
  droprate : F64
  avg_qdelay : ℚ
deriving DecidableEq

/-- The state of a `QueueStats` value (qstats.rs lines 21–28).  The atomics
and mutex-protected containers are flattened into plain fields: each method
of the Rust impl acts on this state.  `TransportSn` keys and `Instant`
timestamps are abstracted to `Nat`. -/
structure QueueStats where
  queue_counter : Nat
  timemap : List (Nat × Nat)
  qsize : List Nat
  dropped : Nat
  tried : Nat
  queueing_delay : List Nat
deriving DecidableEq

/-- `QueueStats::new` (qstats.rs lines 31–40): all counters 0, all
containers empty. -/
def QueueStats.new : QueueStats :=
  { queue_counter := 0, timemap := [], qsize := [], dropped := 0, tried := 0,
    queueing_delay := [] }

/-- `HashMap::insert` on the timestamp map: the new binding replaces any
existing binding of the same key. -/
def mapInsert (sn time : Nat) (m : List (Nat × Nat)) : List (Nat × Nat) :=
  (sn, time) :: m.filter (fun p => p.1 != sn)

/-- `QueueStats::record_qsize` (qstats.rs lines 41–44): loads the live queue
counter and pushes it onto the queue-size history. -/
def QueueStats.record_qsize (s : QueueStats) : QueueStats :=
  { s with qsize := s.qsize ++ [s.queue_counter] }

/-- `QueueStats::push_q_delay` (qstats.rs lines 45–47): pushes one measured
queueing-delay sample onto the delay history. -/
def QueueStats.push_q_delay (s : QueueStats) (delay : Nat) : QueueStats :=
  { s with queueing_delay := s.queueing_delay ++ [delay] }

/-- `QueueStats::push_time` (qstats.rs lines 48–50): inserts the enqueue
timestamp of sequence number `sn` into the timestamp map.  This is the only
method of the impl that touches `timemap`; no method removes an entry. -/
def QueueStats.push_time (s : QueueStats) (sn time : Nat) : QueueStats :=
  { s with timemap := mapInsert sn time s.timemap }

/-- `QueueStats::inc_q_cnt` (qstats.rs lines 51–53): wrapping `fetch_add 1`
on the live queue counter. -/
def QueueStats.inc_q_cnt (s : QueueStats) : QueueStats :=
  { s with queue_counter := (s.queue_counter + 1) % USIZE }

/-- Wrapping decrement of a `usize` value `x < 2^64`: `x - 1` with
wraparound, i.e. `(x + 2^64 - 1) % 2^64`, written as a case split so that
it reduces structurally. -/
def wrapSub1 (x : Nat) : Nat := if x = 0 then USIZE - 1 else x - 1

/-- `QueueStats::dec_q_cnt` (qstats.rs lines 54–56): wrapping `fetch_sub 1`
on the live queue counter. -/
def QueueStats.dec_q_cnt (s : QueueStats) : QueueStats :=
  { s with queue_counter := wrapSub1 s.queue_counter }

/-- `QueueStats::inc_dropped` (qstats.rs lines 57–59): wrapping
`fetch_add 1` on the dropped counter. -/
def QueueStats.inc_dropped (s : QueueStats) : QueueStats :=
  { s with dropped := (s.dropped + 1) % USIZE }

/-- `QueueStats::inc_tried` (qstats.rs lines 60–62): wrapping `fetch_add 1`
on the tried counter. -/
def QueueStats.inc_tried (s : QueueStats) : QueueStats :=
  { s with tried := (s.tried + 1) % USIZE }

/-- `QueueStats::report` (qstats.rs lines 63–98).  With an empty queue-size
history it returns the all-zero report.  Otherwise `avg_qsize` is seeded
with `qsize[0]` and the EMA step is folded over the whole history (the
first element included, as in the source), `droprate` is the `f64` quotient
`dropped / tried` with no guard on `tried`, and `avg_qdelay` is the
constant `0.0` (the delay EMA block is commented out in the source). -/
def QueueStats.report (s : QueueStats) : QueueStatsReport :=
  match s.qsize with
  | [] => { avg_qsize := 0, droprate := F64.finite 0, avg_qdelay := 0 }
  | q0 :: rest =>
      { avg_qsize := ((q0 :: rest).map (fun v => (v : ℚ))).foldl emaStep (q0 : ℚ)
        droprate := f64Div (s.dropped : ℚ) (s.tried : ℚ)
        avg_qdelay := 0 }

/-- `QueueStats::report` as a state-passing operation.  The Rust method
takes `&self` and performs only atomic loads and a lock/read/unlock of the
histories, so the post-state is the receiver unchanged. -/
def QueueStats.reportOp (s : QueueStats) : QueueStatsReport × QueueStats :=
  (s.report, s)

/-- One call of the public `QueueStats` API (qstats.rs lines 41–98): the
raw operation alphabet of the statistics component. -/
inductive Event where
  | recordQsize : Event
  | pushQDelay (delay : Nat) : Event
  | pushTime (sn time : Nat) : Event
  | incQCnt : Event
  | decQCnt : Event
  | incDropped : Event
  | incTried : Event
  | snapshot : Event
deriving DecidableEq

/-- Effect of one raw API call on the statistics state. -/
def step (s : QueueStats) : Event → QueueStats
  | Event.recordQsize => s.record_qsize
  | Event.pushQDelay delay => s.push_q_delay delay
  | Event.pushTime sn time => s.push_time sn time
  | Event.incQCnt => s.inc_q_cnt
  | Event.decQCnt => s.dec_q_cnt
  | Event.incDropped => s.inc_dropped
  | Event.incTried => s.inc_tried
  | Event.snapshot => s.reportOp.2

/-- Run a sequence of raw API calls from a given state. -/
def run (s : QueueStats) (tr : List Event) : QueueStats := tr.foldl step s

/-- One event of the admission discipline of §4.2 of the spec: an admission
attempt calls `inc_tried` first and calls `inc_dropped` exactly when the
attempt fails; no other event touches the two counters. -/
inductive AdmitEvent where
  | attempt (failed : Bool) : AdmitEvent
  | recordQsize : AdmitEvent
  | pushQDelay (delay : Nat) : AdmitEvent
  | pushTime (sn time : Nat) : AdmitEvent
  | incQCnt : AdmitEvent
  | decQCnt : AdmitEvent
  | snapshot : AdmitEvent
deriving DecidableEq

/-- Effect of one disciplined event: an attempt records itself in `tried`
before any wait, and in `dropped` only when it failed. -/
def dstep (s : QueueStats) : AdmitEvent → QueueStats
  | AdmitEvent.attempt failed =>
      if failed then s.inc_tried.inc_dropped else s.inc_tried
  | AdmitEvent.recordQsize => s.record_qsize
  | AdmitEvent.pushQDelay delay => s.push_q_delay delay
  | AdmitEvent.pushTime sn time => s.push_time sn time
  | AdmitEvent.incQCnt => s.inc_q_cnt
  | AdmitEvent.decQCnt => s.dec_q_cnt
  | AdmitEvent.snapshot => s.reportOp.2

/-- Run a sequence of disciplined events from a given state. -/
def drun (s : QueueStats) (tr : List AdmitEvent) : QueueStats := tr.foldl dstep s

/-- `sn` is a key of the timestamp map of `s`. -/
def timemapHasKey (sn : Nat) (s : QueueStats) : Bool :=
  s.timemap.any (fun p => p.1 == sn)

/-- `QueueSizeConf` with its eight per-class capacities, as instantiated by
`impl Default for QueueSizeConf` (defaults.rs lines 237–250). -/
structure QueueSizeConf where
  control : Nat
  real_time : Nat
  interactive_low : Nat
  interactive_high : Nat
  data_high : Nat
  data : Nat
  data_low : Nat
  background : Nat
deriving DecidableEq

/-- `QueueSizeConf::MIN` (defaults.rs line 233). -/
def QueueSizeConf.MIN : Nat := 1

/-- `QueueSizeConf::MAX` (defaults.rs line 234). -/
def QueueSizeConf.MAX : Nat := 16

/-- `QueueSizeConf::default()` (defaults.rs lines 237–250). -/
def QueueSizeConf.default : QueueSizeConf :=
  { control := 1, real_time := 1, interactive_low := 1, interactive_high := 1,
    data_high := 2, data := 4, data_low := 2, background := 1 }

/-- All eight capacities of a configuration, in declaration order. -/
def QueueSizeConf.fields (c : QueueSizeConf) : List Nat :=
  [c.control, c.real_time, c.interactive_low, c.interactive_high,
   c.data_high, c.data, c.data_low, c.background]

/-- The exponential moving average exactly as §4.5 of the specification
words it: seeded with the first sample, then `avg = α·sample + (1-α)·avg`
applied to each subsequent sample in order. -/
def emaSpec (s0 : ℚ) (rest : List ℚ) : ℚ := rest.foldl emaStep s0

/-- The single-sample queueing-delay scenario of §8 of the specification:
admit one message (timestamp recorded, counter incremented, depth sampled),
then dequeue it 10 ms later (counter decremented, delay sample 10 pushed). -/
def c2state : QueueStats :=
  ((((QueueStats.new.push_time 0 0).inc_q_cnt).record_qsize).dec_q_cnt).push_q_delay 10

/-- A state whose queue-size history is `[1, 2]`: two admissions, the
depth sampled after each. -/
def c4state : QueueStats :=
  QueueStats.new.inc_q_cnt.record_qsize.inc_q_cnt.record_qsize

end Zenoh

namespace Params

/-- Rust `&str` contents, modelled as the list of its characters.  Rust
compares `&str` by UTF-8 bytes, and UTF-8 byte order coincides with
code-point order, which is the lexicographic order on `List Char`. -/
abbrev Str := List Char

/-- `LIST_SEPARATOR` (parameters.rs line 14). -/
def LIST_SEPARATOR : Char := ';'

/-- `FIELD_SEPARATOR` (parameters.rs line 15). -/
def FIELD_SEPARATOR : Char := '='

/-- `VALUE_SEPARATOR` (parameters.rs line 16). -/
def VALUE_SEPARATOR : Char := '|'

/-- `split_once` (parameters.rs lines 20–28): split at the first occurrence
of `c`, the separator excluded from both sides; when `c` does not occur,
the whole input is the left part and the right part is empty. -/
def split_once (c : Char) : Str → Str × Str
  | [] => ([], [])
  | x :: xs =>
    if x = c then ([], xs)
    else (x :: (split_once c xs).1, (split_once c xs).2)

/-- Rust `str::split(c)`: the maximal `c`-free chunks, one more chunk than
there are separators; the empty string yields one empty chunk. -/
def splitSep (c : Char) : Str → List Str
  | [] => [[]]
  | x :: xs =>
    if x = c then [] :: splitSep c xs
    else
      match splitSep c xs with
      | [] => [[x]]
      | chunk :: rest => (x :: chunk) :: rest

/-- `Parameters::iter` (parameters.rs lines 34–38): split on
`LIST_SEPARATOR`, discard empty chunks, split each chunk once on
`FIELD_SEPARATOR`. -/
def Parameters.iter (s : Str) : List (Str × Str) :=
  ((splitSep LIST_SEPARATOR s).filter (fun p => !p.isEmpty)).map
    (split_once FIELD_SEPARATOR)

/-- The characters `Parameters::concat_into` emits for one pair: the key,
then, when the value is non-empty, `FIELD_SEPARATOR` and the value. -/
def renderPair (kv : Str × Str) : Str :=
  kv.1 ++ (if kv.2 = [] then [] else FIELD_SEPARATOR :: kv.2)

/-- The loop of `Parameters::concat_into` on the already-filtered pair
list: the rendered pairs joined by `LIST_SEPARATOR`. -/
def concatCore : List (Str × Str) → Str
  | [] => []
  | [kv] => renderPair kv
  | kv :: rest => renderPair kv ++ LIST_SEPARATOR :: concatCore rest

/-- `Parameters::concat_into` (parameters.rs lines 151–167): pairs with an
empty key are skipped, the remaining pairs are rendered and joined by
`LIST_SEPARATOR`. -/
def Parameters.concat_into (l : List (Str × Str)) : Str :=
  concatCore (l.filter (fun kv => !kv.1.isEmpty))

/-- The comparison `|(k1, _), (k2, _)| k1.cmp(k2)` used by
`Parameters::from_iter_into` (parameters.rs line 55): compare pairs by key
in the lexicographic string order. -/
def keyLe (p q : Str × Str) : Prop := p.1 ≤ q.1

instance : DecidableRel keyLe := fun p q =>
  inferInstanceAs (Decidable (p.1 ≤ q.1))

instance : IsTotal (Str × Str) keyLe := ⟨fun p q => le_total p.1 q.1⟩

instance : IsTrans (Str × Str) keyLe := ⟨fun _ _ _ h h2 => le_trans h h2⟩

/-- `Parameters::from_iter` via `from_iter_into` (parameters.rs lines
41–57): collect the pairs, sort them by key ascending, concatenate.
`sort_unstable_by` is modelled by insertion sort; on lists whose keys are
pairwise distinct every key-ascending sort produces the same list. -/
def Parameters.from_iter (l : List (Str × Str)) : Str :=
  Parameters.concat_into (List.insertionSort keyLe l)

/-- The hypotheses of the round-trip claim on one pair: the key is
non-empty and neither key nor value contains any separator character. -/
def wfPair (kv : Str × Str) : Prop :=
  kv.1 ≠ [] ∧
  (LIST_SEPARATOR ∉ kv.1 ∧ FIELD_SEPARATOR ∉ kv.1 ∧ VALUE_SEPARATOR ∉ kv.1) ∧
  (LIST_SEPARATOR ∉ kv.2 ∧ FIELD_SEPARATOR ∉ kv.2 ∧ VALUE_SEPARATOR ∉ kv.2)

instance : DecidablePred wfPair := fun kv => by
  unfold wfPair
  infer_instance

/-- A concrete pair list with distinct non-empty separator-free keys, one
value empty, given out of key order. -/
def wlist : List (Str × Str) := [(['b'], ['1']), (['a'], [])]

end Params

namespace Zenoh

/-- One EMA step applied to a sample equal to the current average leaves
the average unchanged; hence seeding with `qsize[0]` and then folding over
the whole history (the first element included, as the source does) agrees
with the specification's seed-then-fold-over-the-rest. -/
theorem emaStep_self (x : ℚ) : emaStep x x = x := by
  unfold emaStep ALPHA
  ring

/-- The case-split form of the wrapping decrement agrees with
`(x + 2^64 - 1) % 2^64` on every representable `usize` value. -/
theorem wrapSub1_eq (x : Nat) (h : x < USIZE) :
    wrapSub1 x = (x + (USIZE - 1)) % USIZE := by
  unfold USIZE at h
  unfold wrapSub1 USIZE
  split <;> omega

/-- `wrapSub1_eq` at the wrap point `x = 0`. -/
theorem wrapSub1_eq_witness :
    0 < USIZE ∧ wrapSub1 0 = (0 + (USIZE - 1)) % USIZE :=
  ⟨by norm_num [USIZE], wrapSub1_eq 0 (by norm_num [USIZE])⟩

/-- Claim C1, counterexample: in the state reached by sampling the queue
depth once on a fresh `QueueStats` (so the history is non-empty) while no
admission was ever attempted, `tried = 0` yet `report()` does not return
drop rate 0 — the unguarded `f64` division `dropped / tried` is performed
with divisor zero and yields a non-finite value. -/
theorem c1_droprate_zero_tried_counterexample :
    (QueueStats.new.record_qsize).tried = 0 ∧
    (QueueStats.new.record_qsize).report.droprate ≠ F64.finite 0 := by
  refine ⟨rfl, ?_⟩
  show (QueueStats.report
      { queue_counter := 0, timemap := [], qsize := [0], dropped := 0,
        tried := 0, queueing_delay := [] }).droprate ≠ F64.finite 0
  simp [QueueStats.report, f64Div]

/-- Claim C1, amended: the drop rate reported by `report()` equals
`dropped / tried` only when the queue-size history is non-empty and
`tried > 0`; with an empty history the report short-circuits to drop rate 0
regardless of the counters, and with a non-empty history and `tried = 0`
the division by zero is performed and the result is non-finite, not 0. -/
theorem c1_droprate_amended (s : QueueStats) :
    s.report.droprate =
      if s.qsize = [] then F64.finite 0
      else if s.tried = 0 then F64.undef
      else F64.finite ((s.dropped : ℚ) / (s.tried : ℚ)) := by
  obtain ⟨qc, tm, qs, dr, tri, qd⟩ := s
  cases qs with
  | nil => simp [QueueStats.report]
  | cons q0 rest =>
    by_cases h : tri = 0 <;>
      simp [QueueStats.report, f64Div, h, Nat.cast_eq_zero]

/-- Claim C2, counterexample: after the §8 scenario — one message admitted
and dequeued with a single queueing-delay sample of 10 ms recorded — the
reported average queueing delay is 0, not 10: `report()` returns the
constant `0.0` for `avg_qdelay` (the delay EMA is commented out in the
source). -/
theorem c2_qdelay_counterexample :
    c2state.queueing_delay = [10] ∧ c2state.report.avg_qdelay ≠ (10 : ℚ) := by
  refine ⟨rfl, ?_⟩
  show (QueueStats.report
      { queue_counter := 0, timemap := [(0, 0)], qsize := [1], dropped := 0,
        tried := 0, queueing_delay := [10] }).avg_qdelay ≠ (10 : ℚ)
  simp [QueueStats.report]

/-- Claim C2, amended: the average queueing delay reported by `report()`
is 0 in every state, whatever delay samples were recorded — the delay EMA
computation is disabled in the source and the field is hard-coded to
`0.0`. -/
theorem c2_qdelay_amended (s : QueueStats) : s.report.avg_qdelay = 0 := by
  obtain ⟨qc, tm, qs, dr, tri, qd⟩ := s
  cases qs <;> simp [QueueStats.report]

/-- Claim C4: for every state with a non-empty queue-size history
`s0 :: rest`, the `avg_qsize` returned by `report()` equals the
exponential moving average of the specification — seeded with the first
sample and folding `avg = α·sample + (1-α)·avg` over the remaining samples
in order.  (The source seeds with `qsize[0]` and then folds over the whole
history including `qsize[0]`, but the extra first step is the identity.) -/
theorem c4_avg_qsize_is_spec_ema (s : QueueStats) (q0 : Nat) (rest : List Nat)
    (h : s.qsize = q0 :: rest) :
    s.report.avg_qsize = emaSpec (q0 : ℚ) (rest.map (fun v => (v : ℚ))) := by
  obtain ⟨qc, tm, qs, dr, tri, qd⟩ := s
  change qs = q0 :: rest at h
  subst h
  simp [QueueStats.report, emaSpec, emaStep_self]

/-- Claim C4, witness: a state with queue-size history `[1, 2]` satisfies
the hypothesis and the EMA equation of `c4_avg_qsize_is_spec_ema`. -/
theorem c4_avg_qsize_is_spec_ema_witness :
    c4state.qsize = 1 :: [2] ∧
    c4state.report.avg_qsize =
      emaSpec ((1 : Nat) : ℚ) (([2] : List Nat).map (fun v => (v : ℚ))) :=
  ⟨by decide, c4_avg_qsize_is_spec_ema c4state 1 [2] (by decide)⟩

/-- Claim C5: taking a snapshot does not mutate the statistics state — the
tried counter, dropped counter, live queue-depth counter, queue-size
history, delay history and timestamp map after `report()` all equal their
values before the call. -/
theorem c5_report_mutates_nothing (s : QueueStats) :
    s.reportOp.2.tried = s.tried ∧ s.reportOp.2.dropped = s.dropped ∧
    s.reportOp.2.queue_counter = s.queue_counter ∧
    s.reportOp.2.qsize = s.qsize ∧
    s.reportOp.2.queueing_delay = s.queueing_delay ∧
    s.reportOp.2.timemap = s.timemap :=
  ⟨rfl, rfl, rfl, rfl, rfl, rfl⟩

/-- Claim C7: every per-class capacity of `QueueSizeConf::default()` lies
in the allowed range `QueueSizeConf::MIN = 1` to `QueueSizeConf::MAX =
16`. -/
theorem c7_default_queue_sizes_in_range :
    ∀ v ∈ QueueSizeConf.default.fields,
      QueueSizeConf.MIN ≤ v ∧ v ≤ QueueSizeConf.MAX := by
  decide

/-- Claim C7, witness: the `data` lane's default capacity 4 is one of the
default capacities and lies in the range. -/
theorem c7_default_queue_sizes_in_range_witness :
    4 ∈ QueueSizeConf.default.fields ∧
    (QueueSizeConf.MIN ≤ 4 ∧ 4 ≤ QueueSizeConf.MAX) :=
  ⟨by decide, c7_default_queue_sizes_in_range 4 (by decide)⟩

/-- Claim C8: with an empty queue-size history, `report()` returns the
all-zero report — average queue size 0, drop rate 0 and average queueing
delay 0 — regardless of the values of the tried and dropped counters. -/
theorem c8_empty_history_all_zero (s : QueueStats) (h : s.qsize = []) :
    s.report = { avg_qsize := 0, droprate := F64.finite 0, avg_qdelay := 0 } := by
  obtain ⟨qc, tm, qs, dr, tri, qd⟩ := s
  change qs = [] at h
  subst h
  rfl

/-- Claim C8, witness: a fresh state with one drop recorded and no depth
sample still reports drop rate 0 (and zeros throughout). -/
theorem c8_empty_history_all_zero_witness :
    (QueueStats.new.inc_dropped).qsize = [] ∧
    (QueueStats.new.inc_dropped).dropped ≠ 0 ∧
    (QueueStats.new.inc_dropped).report =
      { avg_qsize := 0, droprate := F64.finite 0, avg_qdelay := 0 } :=
  ⟨rfl, by decide, c8_empty_history_all_zero QueueStats.new.inc_dropped rfl⟩

/-- Claim C9: when the live queue-depth counter is 0, `dec_q_cnt` (a
wrapping `fetch_sub`) wraps the counter to `2^64 - 1` instead of failing or
saturating, and a following `record_qsize` pushes that wrapped value onto
the queue-size history. -/
theorem c9_dec_q_cnt_wraps (s : QueueStats) (h : s.queue_counter = 0) :
    (s.dec_q_cnt).queue_counter = 2 ^ 64 - 1 ∧
    (s.dec_q_cnt.record_qsize).qsize = s.qsize ++ [2 ^ 64 - 1] := by
  obtain ⟨qc, tm, qs, dr, tri, qd⟩ := s
  change qc = 0 at h
  subst h
  constructor
  · show wrapSub1 0 = 2 ^ 64 - 1
    norm_num [wrapSub1, USIZE]
  · show qs ++ [wrapSub1 0] = qs ++ [2 ^ 64 - 1]
    norm_num [wrapSub1, USIZE]

/-- Claim C9, witness: on the fresh state (counter 0), the decrement wraps
to `2^64 - 1` and the wrapped value is recorded as a depth sample. -/
theorem c9_dec_q_cnt_wraps_witness :
    QueueStats.new.queue_counter = 0 ∧
    ((QueueStats.new.dec_q_cnt).queue_counter = 2 ^ 64 - 1 ∧
     (QueueStats.new.dec_q_cnt.record_qsize).qsize =
       QueueStats.new.qsize ++ [2 ^ 64 - 1]) :=
  ⟨rfl, c9_dec_q_cnt_wraps QueueStats.new rfl⟩

theorem timemapHasKey_push_time (s : QueueStats) (sn time : Nat) :
    timemapHasKey sn (s.push_time sn time) = true := by
  simp [timemapHasKey, QueueStats.push_time, mapInsert]

theorem timemapHasKey_step {sn : Nat} {s : QueueStats} (e : Event)
    (h : timemapHasKey sn s = true) : timemapHasKey sn (step s e) = true := by
  cases e with
  | pushTime sn2 t2 =>
    by_cases hsn : sn2 = sn
    · subst hsn
      exact timemapHasKey_push_time s sn2 t2
    · simp only [timemapHasKey, step, QueueStats.push_time, mapInsert,
        List.any_eq_true, List.mem_filter, List.mem_cons, beq_iff_eq,
        bne_iff_ne] at h ⊢
      obtain ⟨p, hp, hps⟩ := h
      exact ⟨p, Or.inr ⟨hp, by rw [hps]; exact fun hh => hsn hh.symm⟩, hps⟩
  | recordQsize => exact h
  | pushQDelay delay => exact h
  | incQCnt => exact h
  | decQCnt => exact h
  | incDropped => exact h
  | incTried => exact h
  | snapshot => exact h

theorem timemapHasKey_run (sn : Nat) (tr : List Event) :
    ∀ s : QueueStats, timemapHasKey sn s = true →
      timemapHasKey sn (run s tr) = true := by
  induction tr with
  | nil => exact fun s h => h
  | cons e tr ih => exact fun s h => ih (step s e) (timemapHasKey_step e h)

/-- Claim C3 (failing behaviour, exhibited): the sequence-number-to-
timestamp entry inserted by `push_time` at admission is retained by every
subsequent sequence of statistics API calls — including the dequeue-side
calls (`dec_q_cnt`, `push_q_delay`) and the drop-side call (`inc_dropped`).
The implementation offers no removal path at all: `push_time` is the only
method that touches the private `timemap`, so the mapping grows without
bound, contradicting the required invariant. -/
theorem c3_timemap_entry_never_removed (sn time : Nat) (tr : List Event) :
    timemapHasKey sn (run (QueueStats.new.push_time sn time) tr) = true :=
  timemapHasKey_run sn tr _ (timemapHasKey_push_time QueueStats.new sn time)

theorem drun_counter_invariant (tr : List AdmitEvent) :
    ∀ s : QueueStats, s.dropped ≤ s.tried → s.tried + tr.length < USIZE →
      (drun s tr).dropped ≤ (drun s tr).tried ∧
      (drun s tr).tried ≤ s.tried + tr.length := by
  induction tr with
  | nil => exact fun s h _ => ⟨h, Nat.le_add_right _ _⟩
  | cons e tr ih =>
    intro s h hlen
    have hlen' : s.tried + (tr.length + 1) < USIZE := by
      simpa [List.length_cons] using hlen
    change (drun (dstep s e) tr).dropped ≤ (drun (dstep s e) tr).tried ∧
      (drun (dstep s e) tr).tried ≤ s.tried + (e :: tr).length
    by_cases hatt : ∃ failed, e = AdmitEvent.attempt failed
    · obtain ⟨failed, rfl⟩ := hatt
      have htried : s.tried + 1 < USIZE := by omega
      have ht : (dstep s (AdmitEvent.attempt failed)).tried = s.tried + 1 := by
        cases failed
        · exact Nat.mod_eq_of_lt htried
        · exact Nat.mod_eq_of_lt htried
      have hd : (dstep s (AdmitEvent.attempt failed)).dropped ≤ s.tried + 1 := by
        cases failed
        · exact le_trans h (Nat.le_succ _)
        · show (s.dropped + 1) % USIZE ≤ s.tried + 1
          rw [Nat.mod_eq_of_lt (by omega)]
          omega
      obtain ⟨ha, hb⟩ := ih (dstep s (AdmitEvent.attempt failed))
        (by rw [ht]; exact hd) (by rw [ht]; omega)
      refine ⟨ha, ?_⟩
      rw [ht] at hb
      simp only [List.length_cons]
      omega
    · have hT : (dstep s e).tried = s.tried := by
        cases e with
        | attempt failed => exact absurd ⟨failed, rfl⟩ hatt
        | recordQsize => rfl
        | pushQDelay delay => rfl
        | pushTime sn time => rfl
        | incQCnt => rfl
        | decQCnt => rfl
        | snapshot => rfl
      have hD : (dstep s e).dropped = s.dropped := by
        cases e with
        | attempt failed => exact absurd ⟨failed, rfl⟩ hatt
        | recordQsize => rfl
        | pushQDelay delay => rfl
        | pushTime sn time => rfl
        | incQCnt => rfl
        | decQCnt => rfl
        | snapshot => rfl
      obtain ⟨ha, hb⟩ := ih (dstep s e) (by rw [hT, hD]; exact h) (by rw [hT]; omega)
      refine ⟨ha, ?_⟩
      rw [hT] at hb
      simp only [List.length_cons]
      omega

/-- Claim C6: under the admission discipline — every attempt increments
`tried` first, and exactly the failed attempts increment `dropped` — every
state reachable from the fresh statistics state satisfies
`dropped ≤ tried`.  The trace-length bound keeps the wrapping 64-bit
`fetch_add` counters below their modulus (fewer than `2^64` operations). -/
theorem c6_dropped_le_tried (tr : List AdmitEvent) (h : tr.length < USIZE) :
    (drun QueueStats.new tr).dropped ≤ (drun QueueStats.new tr).tried :=
  (drun_counter_invariant tr QueueStats.new (Nat.le_refl 0)
    (by simpa [QueueStats.new] using h)).1

/-- Claim C6, witness: the one-event trace of a single failed admission
attempt satisfies the length bound, and in the reached state
`dropped ≤ tried` holds. -/
theorem c6_dropped_le_tried_witness :
    ([AdmitEvent.attempt true].length < USIZE) ∧
    ((drun QueueStats.new [AdmitEvent.attempt true]).dropped ≤
      (drun QueueStats.new [AdmitEvent.attempt true]).tried) :=
  ⟨by norm_num [USIZE], c6_dropped_le_tried [AdmitEvent.attempt true]
    (by norm_num [USIZE])⟩

end Zenoh

namespace Params

theorem split_once_of_not_mem (c : Char) (s : Str) (h : c ∉ s) :
    split_once c s = (s, []) := by
  induction s with
  | nil => rfl
  | cons x xs ih =>
    simp only [List.mem_cons, not_or] at h
    rw [split_once, if_neg (fun hx => h.1 hx.symm), ih h.2]

theorem split_once_append (c : Char) (k v : Str) (h : c ∉ k) :
    split_once c (k ++ c :: v) = (k, v) := by
  induction k with
  | nil =>
    show split_once c (c :: v) = ([], v)
    rw [split_once, if_pos rfl]
  | cons x xs ih =>
    simp only [List.mem_cons, not_or] at h
    show split_once c (x :: (xs ++ c :: v)) = (x :: xs, v)
    rw [split_once, if_neg (fun hx => h.1 hx.symm), ih h.2]

theorem splitSep_of_not_mem (c : Char) (s : Str) (h : c ∉ s) :
    splitSep c s = [s] := by
  induction s with
  | nil => rfl
  | cons x xs ih =>
    simp only [List.mem_cons, not_or] at h
    rw [splitSep, if_neg (fun hx => h.1 hx.symm), ih h.2]

theorem splitSep_append (c : Char) (chunk rest : Str) (h : c ∉ chunk) :
    splitSep c (chunk ++ c :: rest) = chunk :: splitSep c rest := by
  induction chunk with
  | nil =>
    show splitSep c (c :: rest) = [] :: splitSep c rest
    rw [splitSep, if_pos rfl]
  | cons x xs ih =>
    simp only [List.mem_cons, not_or] at h
    show splitSep c (x :: (xs ++ c :: rest)) = (x :: xs) :: splitSep c rest
    rw [splitSep, if_neg (fun hx => h.1 hx.symm), ih h.2]

theorem renderPair_ne_nil (kv : Str × Str) (h : kv.1 ≠ []) :
    renderPair kv ≠ [] := by
  cases hk : kv.1 with
  | nil => exact absurd hk h
  | cons x xs => simp [renderPair, hk]

theorem not_isEmpty_of_ne_nil (s : Str) (h : s ≠ []) : (!s.isEmpty) = true := by
  cases s with
  | nil => exact absurd rfl h
  | cons x xs => rfl

theorem filterNonEmpty_cons (s : Str) (l : List Str) (h : s ≠ []) :
    (s :: l).filter (fun p => !p.isEmpty) =
      s :: l.filter (fun p => !p.isEmpty) := by
  have hp : (!s.isEmpty) = true := not_isEmpty_of_ne_nil s h
  simp [List.filter_cons, hp]

theorem list_sep_not_mem_renderPair (kv : Str × Str) (h : wfPair kv) :
    LIST_SEPARATOR ∉ renderPair kv := by
  obtain ⟨h1, ⟨hk1, hk2, hk3⟩, ⟨hv1, hv2, hv3⟩⟩ := h
  unfold renderPair
  intro hmem
  rcases List.mem_append.mp hmem with hmem | hmem
  · exact hk1 hmem
  · by_cases h2 : kv.2 = []
    · rw [if_pos h2] at hmem
      exact absurd hmem (List.not_mem_nil _)
    · rw [if_neg h2] at hmem
      rcases List.mem_cons.mp hmem with heq | hmem
      · exact absurd heq (by decide)
      · exact hv1 hmem

theorem split_once_renderPair (kv : Str × Str) (h : wfPair kv) :
    split_once FIELD_SEPARATOR (renderPair kv) = kv := by
  obtain ⟨k, v⟩ := kv
  obtain ⟨h1, ⟨hk1, hk2, hk3⟩, hv⟩ := h
  by_cases h2 : v = []
  · subst h2
    simp [renderPair, split_once_of_not_mem _ _ hk2]
  · simp [renderPair, h2, split_once_append _ _ _ hk2]

theorem iter_concatCore (l : List (Str × Str)) (h : ∀ kv ∈ l, wfPair kv) :
    Parameters.iter (concatCore l) = l := by
  induction l with
  | nil => rfl
  | cons kv rest ih =>
    have hwf : wfPair kv := h kv (List.mem_cons_self kv rest)
    cases rest with
    | nil =>
      show Parameters.iter (renderPair kv) = [kv]
      unfold Parameters.iter
      rw [splitSep_of_not_mem _ _ (list_sep_not_mem_renderPair kv hwf)]
      rw [filterNonEmpty_cons _ _ (renderPair_ne_nil kv hwf.1)]
      rw [List.filter_nil, List.map_cons, List.map_nil,
        split_once_renderPair kv hwf]
    | cons kv2 rest2 =>
      have hrest : ∀ p ∈ kv2 :: rest2, wfPair p :=
        fun p hp => h p (List.mem_cons_of_mem kv hp)
      show Parameters.iter
        (renderPair kv ++ LIST_SEPARATOR :: concatCore (kv2 :: rest2)) =
        kv :: kv2 :: rest2
      unfold Parameters.iter
      rw [splitSep_append _ _ _ (list_sep_not_mem_renderPair kv hwf)]
      rw [filterNonEmpty_cons _ _ (renderPair_ne_nil kv hwf.1)]
      rw [List.map_cons, split_once_renderPair kv hwf]
      have hrec := ih hrest
      unfold Parameters.iter at hrec
      rw [hrec]

/-- Claim C10: for every finite list of key-value pairs with pairwise
distinct non-empty keys in which no key or value contains a separator
character (`;`, `=`, `|`), iterating `Parameters::iter` over the string
produced by `Parameters::from_iter` yields exactly the pairs of the list in
strictly ascending key order: the result is a permutation of the input and
its keys are pairwise strictly increasing.  Empty values round-trip: they
are rendered without `=` and parse back as the empty string. -/
theorem c10_from_iter_iter_roundtrip (l : List (Str × Str))
    (hwf : ∀ kv ∈ l, wfPair kv) (hkeys : (l.map Prod.fst).Nodup) :
    (Parameters.iter (Parameters.from_iter l)).Perm l ∧
    List.Pairwise (fun p q : Str × Str => p.1 < q.1)
      (Parameters.iter (Parameters.from_iter l)) := by
  have hperm : (List.insertionSort keyLe l).Perm l :=
    List.perm_insertionSort keyLe l
  have hwf2 : ∀ kv ∈ List.insertionSort keyLe l, wfPair kv :=
    fun kv hm => hwf kv ((List.mem_insertionSort keyLe).mp hm)
  have hfilter : (List.insertionSort keyLe l).filter (fun kv => !kv.1.isEmpty) =
      List.insertionSort keyLe l :=
    List.filter_eq_self.mpr
      (fun kv hm => not_isEmpty_of_ne_nil _ (hwf2 kv hm).1)
  have hiter : Parameters.iter (Parameters.from_iter l) =
      List.insertionSort keyLe l := by
    unfold Parameters.from_iter Parameters.concat_into
    rw [hfilter]
    exact iter_concatCore _ hwf2
  rw [hiter]
  refine ⟨hperm, ?_⟩
  have hsorted : List.Pairwise keyLe (List.insertionSort keyLe l) :=
    List.sorted_insertionSort keyLe l
  have hnd : ((List.insertionSort keyLe l).map Prod.fst).Nodup :=
    ((hperm.map Prod.fst).nodup_iff).mpr hkeys
  have hne : List.Pairwise (fun p q : Str × Str => p.1 ≠ q.1)
      (List.insertionSort keyLe l) :=
    List.pairwise_map.mp hnd
  exact (hsorted.and hne).imp (fun hab => lt_of_le_of_ne hab.1 hab.2)

/-- Claim C10, witness: the two-pair list `wlist` — distinct non-empty
separator-free keys given out of order, one empty value — satisfies the
hypotheses, and the parse of its rendering is a key-sorted permutation of
it. -/
theorem c10_from_iter_iter_roundtrip_witness :
    (∀ kv ∈ wlist, wfPair kv) ∧ ((wlist.map Prod.fst).Nodup) ∧
    ((Parameters.iter (Parameters.from_iter wlist)).Perm wlist ∧
     List.Pairwise (fun p q : Str × Str => p.1 < q.1)
       (Parameters.iter (Parameters.from_iter wlist))) :=
  ⟨by decide, by decide,
    c10_from_iter_iter_roundtrip wlist (by decide) (by decide)⟩

end Params
